import Mathlib

/-!
Verification of the Row/Col number-picking game core
(`board_manager.py`, `strategies.py`, `game_engine.py`).

The Python classes are shallowly embedded: the mutable `BoardManager` object
becomes an immutable structure, mutation becomes explicit state passing
(functions return the updated structure), and methods that raise become
`Except`/`Option`-valued functions.  Machine integers are `Int`; positions
are zero-based `Nat` pairs (Python `in_bounds` rejects coordinates outside
`[0, size)`, so the nonnegative fragment is the live one).
-/

/-- Zero-based (row, column) coordinates, as in `board_manager.Position`. -/
abbrev Position := Nat × Nat

/-- Embedding of the `BoardManager` object state: the grid (a cell is `none`
once removed), the board size, and the most recently removed cell. -/
structure BoardManager where
  size : Nat
  board : List (List (Option Int))
  last_removed_pos : Option Position
  deriving Repr, DecidableEq

namespace BoardManager

/-- Model of one draw of Python's seeded PRNG `random.Random(seed).randint(1, 9)`:
a deterministic function of the generator state returning a value in `[1, 9]`
and the successor state.  The exact Mersenne-Twister stream is abstracted as a
64-bit linear congruential step; the development relies only on the two
properties the source relies on: determinism in the seed and the `[1, 9]`
range of `randint(1, 9)`. -/
def randint19 (state : Nat) : Int × Nat :=
  let st := (6364136223846793005 * state + 1442695040888963407) % 2 ^ 64
  (1 + Int.ofNat (st % 9), st)

/-- Generate one row of `count` random cells, threading the generator state
(`[self.random.randint(1, 9) for _ in range(self.size)]`). -/
def randRow : Nat → Nat → List (Option Int) × Nat
  | 0, st => ([], st)
  | n + 1, st =>
    let (v, st') := randint19 st
    let (rest, st'') := randRow n st'
    (some v :: rest, st'')

/-- Generate the full random grid row by row, threading the generator state. -/
def randGrid (size : Nat) : Nat → Nat → List (List (Option Int)) × Nat
  | 0, st => ([], st)
  | n + 1, st =>
    let (row, st') := randRow size st
    let (rest, st'') := randGrid size n st'
    (row :: rest, st'')

/-- Python's `random.Random(seed)` hashes an arbitrary integer seed into the
generator state; modelled by mapping the integer into `Nat` injectively. -/
def seedState (seed : Int) : Nat :=
  match seed with
  | .ofNat n => 2 * n
  | .negSucc n => 2 * n + 1

/-- Embedding of `BoardManager._init_board`: with a preset list its length
must equal `size * size` (else `ValueError`), and the values are laid out
row-major verbatim; without a preset the grid is filled with seeded random
draws in `[1, 9]`.  `entropy` models the OS entropy Python's `Random(None)`
falls back to when no seed is supplied. -/
def _init_board (entropy : Int) (size : Nat) (seed : Option Int)
    (preset_board : Option (List Int)) : Except String (List (List (Option Int))) :=
  match preset_board with
  | some pb =>
    if pb.length ≠ size * size then
      .error "Preset board length mismatch"
    else
      .ok ((List.range size).map fun r =>
        (List.range size).map fun c => some (pb.getD (r * size + c) 0))
  | none =>
    .ok (randGrid size size (seedState ((seed.getD entropy)))).1

/-- Embedding of `BoardManager.__init__`: build the grid (propagating the
preset-length `ValueError`) and start with no removed cell. -/
def init (entropy : Int) (size : Nat) (seed : Option Int)
    (preset_board : Option (List Int)) : Except String BoardManager :=
  match _init_board entropy size seed preset_board with
  | .error e => .error e
  | .ok grid => .ok { size := size, board := grid, last_removed_pos := none }

/-- Raw cell lookup `self.board[r][c]`, with out-of-range reads mapped to
`none` (the embedding only relies on it at in-bounds positions, where it
agrees with Python). -/
def cellAt (b : BoardManager) (pos : Position) : Option Int :=
  (b.board.getD pos.1 []).getD pos.2 none

/-- Embedding of `BoardManager.in_bounds`. -/
def in_bounds (b : BoardManager) (pos : Position) : Bool :=
  pos.1 < b.size && pos.2 < b.size

/-- Embedding of `BoardManager.is_available`: in bounds and not removed. -/
def is_available (b : BoardManager) (pos : Position) : Bool :=
  b.in_bounds pos && (b.cellAt pos).isSome

/-- Embedding of `BoardManager.get_value`. -/
def get_value (b : BoardManager) (pos : Position) : Option Int :=
  b.cellAt pos

/-- Write one cell of the grid (`self.board[r][c] = v`). -/
def setCell (b : BoardManager) (pos : Position) (v : Option Int) : BoardManager :=
  { b with board := b.board.set pos.1 ((b.board.getD pos.1 []).set pos.2 v) }

/-- Embedding of `BoardManager.remove_and_get`: `ValueError` when the position
is unavailable, otherwise return the prior value together with the updated
board (cell cleared, position recorded as the latest removal). -/
def remove_and_get (b : BoardManager) (pos : Position) : Except String (Int × BoardManager) :=
  if ¬ b.is_available pos then
    .error "Attempted to remove unavailable position"
  else
    .ok ((b.cellAt pos).getD 0,
      { b.setCell pos none with last_removed_pos := some pos })

/-- Embedding of `BoardManager.get_all_available_positions`: all non-removed
cells in row-major order. -/
def get_all_available_positions (b : BoardManager) : List Position :=
  (List.range b.size).flatMap fun r =>
    (List.range b.size).filterMap fun c =>
      if (b.cellAt (r, c)).isSome then some (r, c) else none

/-- Embedding of `BoardManager.get_allowed_positions`: available cells of
`last_pos`'s row (ascending column), then available cells of `last_pos`'s
column (ascending row) skipping the intersection row. -/
def get_allowed_positions (b : BoardManager) (last_pos : Position) : List Position :=
  ((List.range b.size).filterMap fun c =>
    if (b.cellAt (last_pos.1, c)).isSome then some (last_pos.1, c) else none) ++
  ((List.range b.size).filterMap fun r =>
    if r ≠ last_pos.1 ∧ (b.cellAt (r, last_pos.2)).isSome then some (r, last_pos.2) else none)

/-- Embedding of `BoardManager.max_remaining_value`: fold over all cells
starting from 0, keeping the largest value seen. -/
def max_remaining_value (b : BoardManager) : Int :=
  b.board.foldl (fun acc row =>
    row.foldl (fun m cell =>
      match cell with
      | some v => if v > m then v else m
      | none => m) acc) 0

/-- Number of non-removed cells on the grid. -/
def countAvailable (b : BoardManager) : Nat :=
  (b.board.map fun row => row.countP fun cell => cell.isSome).sum

/-- Shape invariant of every constructed board: `size` rows of `size` cells. -/
def WF (b : BoardManager) : Prop :=
  b.board.length = b.size ∧ ∀ row ∈ b.board, row.length = b.size

/-- The legal set computed by strategies and the turn loop alike: all
available positions on the opening move, the row/column cells afterwards. -/
def legal_set (b : BoardManager) (last_pos : Option Position) : List Position :=
  match last_pos with
  | none => b.get_all_available_positions
  | some lp => b.get_allowed_positions lp

end BoardManager

namespace Strategies

open BoardManager

/-- Loop body of `_best_by_key` (with `reverse=True`) in state-passing form:
the metric `f` may mutate the board, the running best and its key are carried
along, and a candidate replaces the best exactly when its key is strictly
greater. -/
def bestAuxS {κ : Type} [LinearOrder κ] (f : BoardManager → Position → κ × BoardManager) :
    BoardManager → Position → κ → List Position → Position × BoardManager
  | b, best, _, [] => (best, b)
  | b, best, bestKey, x :: xs =>
    let kb := f b x
    if bestKey < kb.1 then bestAuxS f kb.2 x kb.1 xs else bestAuxS f kb.2 best bestKey xs

/-- Embedding of `_best_by_key` (with `reverse=True`): evaluate the metric on
every candidate in order, first candidate seeds the best, later ones replace
it only on a strictly greater key; `none` on an empty candidate list. -/
def bestByKeyS {κ : Type} [LinearOrder κ] (f : BoardManager → Position → κ × BoardManager)
    (b : BoardManager) : List Position → Option (Position × BoardManager)
  | [] => none
  | x :: xs =>
    let kb := f b x
    some (bestAuxS f kb.2 x kb.1 xs)

/-- Pure form of the `_best_by_key` loop, for a metric that does not (net)
change the board. -/
def bestAux {κ : Type} [LinearOrder κ] (key : Position → κ) :
    Position → κ → List Position → Position
  | best, _, [] => best
  | best, bestKey, x :: xs =>
    if bestKey < key x then bestAux key x (key x) xs else bestAux key best bestKey xs

/-- Embedding of the `metric` closure of `strategy_maximize_future_min`:
record the candidate's value, temporarily clear the cell, read the opponent's
legal replies and their minimum value (0 when there are none), restore the
cell, and rank by `(value − opponent minimum, value)`. -/
def mfm_metricS (b : BoardManager) (pos : Position) : (Int ×ₗ Int) × BoardManager :=
  let val_now : Int := (b.get_value pos).getD 0
  let saved := b.cellAt pos
  let b1 := b.setCell pos none
  let opp := b1.get_allowed_positions pos
  let min_opp : Int :=
    match opp.map (fun p => (b1.get_value p).getD 0) with
    | [] => 0
    | v :: vs => vs.foldl min v
  let b2 := b1.setCell pos saved
  (toLex (val_now - min_opp, val_now), b2)

/-- Embedding of the `metric` closure of `strategy_minimize_opponent_options`:
temporarily clear the cell, count the opponent's legal replies, restore, and
rank by `(−count, value)`. -/
def moo_metricS (b : BoardManager) (pos : Position) : (Int ×ₗ Int) × BoardManager :=
  let saved := b.cellAt pos
  let b1 := b.setCell pos none
  let opp := b1.get_allowed_positions pos
  let count := opp.length
  let b2 := b1.setCell pos saved
  (toLex (-(count : Int), (b2.get_value pos).getD 0), b2)

/-- Embedding of the `metric` closure of `strategy_high_value_preservation`:
temporarily clear the cell, scan the opponent's legal replies flagging and
counting cells equal to the precomputed global maximum, restore, and rank by
`(−flag, −count, value)`. -/
def hvp_metricS (global_max : Int) (b : BoardManager) (pos : Position) :
    (Int ×ₗ Int ×ₗ Int) × BoardManager :=
  let saved := b.cellAt pos
  let b1 := b.setCell pos none
  let opp := b1.get_allowed_positions pos
  let hitsPair : Int × Int := opp.foldl
    (fun acc p => if (b1.get_value p).getD 0 = global_max then (1, acc.2 + 1) else acc)
    (0, 0)
  let b2 := b1.setCell pos saved
  (toLex (-hitsPair.1, toLex (-hitsPair.2, (b2.get_value pos).getD 0)), b2)

/-- Embedding of `strategy_greedy_maximize`: pick the legal cell with the
highest immediate value (metric `(board.get_value(p) or 0,)`). -/
def strategy_greedy_maximize (b : BoardManager) (last_pos : Option Position) :
    Option (Position × BoardManager) :=
  bestByKeyS (fun b' p => (((b'.get_value p).getD 0 : Int), b')) b (b.legal_set last_pos)

/-- Embedding of `strategy_maximize_future_min`. -/
def strategy_maximize_future_min (b : BoardManager) (last_pos : Option Position) :
    Option (Position × BoardManager) :=
  bestByKeyS mfm_metricS b (b.legal_set last_pos)

/-- Embedding of `strategy_minimize_opponent_options`. -/
def strategy_minimize_opponent_options (b : BoardManager) (last_pos : Option Position) :
    Option (Position × BoardManager) :=
  bestByKeyS moo_metricS b (b.legal_set last_pos)

/-- Embedding of `strategy_high_value_preservation`: the global maximum is
computed once from the incoming board, before any candidate is simulated. -/
def strategy_high_value_preservation (b : BoardManager) (last_pos : Option Position) :
    Option (Position × BoardManager) :=
  bestByKeyS (hvp_metricS b.max_remaining_value) b (b.legal_set last_pos)

end Strategies

namespace GameEngine

open BoardManager

/-- The summary dict returned by `start_game` at game over. -/
structure GameResult where
  a_score : Int
  b_score : Int
  rounds : Nat
  winner : String
  deriving Repr, DecidableEq

/-- The loop state of `start_game`: board, previous move, scores, round
counter, and whose turn it is (`current_A = true` for player A). -/
structure GameState where
  board : BoardManager
  last_pos : Option Position
  a_score : Int
  b_score : Int
  round_num : Nat
  current_A : Bool
  deriving Repr

/-- Winner determination at the bottom of `start_game`. -/
def winner_of (a b : Int) : String :=
  if a > b then "A" else if b > a then "B" else "Tie"

/-- Embedding of the main turn loop of `start_game`.  A chooser function
abstracts one player slot (a strategy, or a human whose raw input the loop
has validated against the legal set); `fuel` bounds the number of iterations
so the recursion is structural — the termination theorem shows `size*size + 1`
fuel always suffices.  A chooser returning `none` or an illegal move models
the exception paths the source would take. -/
def start_game_loop (chooseA chooseB : BoardManager → Option Position → Option Position) :
    Nat → GameState → Option GameResult
  | 0, _ => none
  | fuel + 1, st =>
    let allowed := st.board.legal_set st.last_pos
    if allowed = [] then
      some { a_score := st.a_score, b_score := st.b_score, rounds := st.round_num,
             winner := winner_of st.a_score st.b_score }
    else
      match (if st.current_A then chooseA else chooseB) st.board st.last_pos with
      | none => none
      | some move =>
        match st.board.remove_and_get move with
        | .error _ => none
        | .ok vb =>
          start_game_loop chooseA chooseB fuel
            { board := vb.2, last_pos := some move,
              a_score := if st.current_A then st.a_score + vb.1 else st.a_score,
              b_score := if st.current_A then st.b_score else st.b_score + vb.1,
              round_num := st.round_num + 1, current_A := ! st.current_A }

/-- The initial loop state of `start_game`: fresh board, no previous move,
zero scores, round 0, the configured start player to move. -/
def initState (b : BoardManager) (startA : Bool) : GameState :=
  { board := b, last_pos := none, a_score := 0, b_score := 0,
    round_num := 0, current_A := startA }

end GameEngine

/-! ### List helper lemmas -/

theorem list_set_getD_self {α : Type} (l : List α) (n : Nat) (d : α) (h : n < l.length) :
    l.set n (l.getD n d) = l := by
  rw [List.getD_eq_getElem _ _ h]
  apply List.ext_getElem
  · simp
  · intro i h1 h2
    rw [List.getElem_set]
    split
    · next heq => subst heq; rfl
    · rfl

theorem list_getD_set_self {α : Type} (l : List α) (n : Nat) (x d : α) (h : n < l.length) :
    (l.set n x).getD n d = x := by
  rw [List.getD_eq_getElem _ _ (by simpa using h), List.getElem_set_self]

theorem list_getD_set_ne {α : Type} (l : List α) (n m : Nat) (x d : α) (hnm : n ≠ m) :
    (l.set n x).getD m d = l.getD m d := by
  by_cases hm : m < l.length
  · rw [List.getD_eq_getElem _ _ (by simpa using hm), List.getD_eq_getElem _ _ hm,
      List.getElem_set_ne (by omega)]
  · rw [List.getD_eq_default _ _ (by simpa using not_lt.mp hm),
      List.getD_eq_default _ _ (not_lt.mp hm)]

theorem list_getD_ne_default_lt {α : Type} (l : List α) (n : Nat) (d : α)
    (h : l.getD n d ≠ d) : n < l.length := by
  by_contra hn
  exact h (List.getD_eq_default _ _ (not_lt.mp hn))

namespace BoardManager

/-! ### Cell access and `setCell` lemmas -/

theorem cellAt_row_lt {b : BoardManager} {p : Position} (h : (b.cellAt p).isSome) :
    p.1 < b.board.length := by
  apply list_getD_ne_default_lt b.board p.1 []
  intro hrow
  rw [cellAt, hrow] at h
  simp [List.getD] at h

theorem cellAt_col_lt {b : BoardManager} {p : Position} (h : (b.cellAt p).isSome) :
    p.2 < (b.board.getD p.1 []).length := by
  apply list_getD_ne_default_lt _ p.2 none
  intro hc
  rw [cellAt, hc] at h
  simp at h

@[simp] theorem setCell_size (b : BoardManager) (p : Position) (v : Option Int) :
    (b.setCell p v).size = b.size := rfl

@[simp] theorem setCell_last (b : BoardManager) (p : Position) (v : Option Int) :
    (b.setCell p v).last_removed_pos = b.last_removed_pos := rfl

theorem cellAt_setCell_self {b : BoardManager} {p : Position} (v : Option Int)
    (h1 : p.1 < b.board.length) (h2 : p.2 < (b.board.getD p.1 []).length) :
    (b.setCell p v).cellAt p = v := by
  unfold cellAt setCell
  rw [list_getD_set_self _ _ _ _ h1, list_getD_set_self _ _ _ _ h2]

theorem cellAt_setCell_ne {b : BoardManager} {p q : Position} (v : Option Int)
    (hne : q ≠ p) : (b.setCell p v).cellAt q = b.cellAt q := by
  unfold cellAt setCell
  by_cases h1 : p.1 = q.1
  · have h2 : p.2 ≠ q.2 := by
      intro h2
      exact hne (Prod.ext h1.symm h2.symm)
    by_cases hlt : p.1 < b.board.length
    · rw [← h1, list_getD_set_self _ _ _ _ hlt, list_getD_set_ne _ _ _ _ _ h2]
    · rw [List.set_eq_of_length_le (not_lt.mp hlt)]
  · rw [list_getD_set_ne _ _ _ _ _ h1]

/-- Restoring a cell to its saved value undoes any overwrite: the
simulate-then-restore discipline of the lookahead strategies is exact. -/
theorem setCell_restore (b : BoardManager) (p : Position) (v : Option Int) :
    (b.setCell p v).setCell p (b.cellAt p) = b := by
  unfold setCell cellAt
  by_cases h1 : p.1 < b.board.length
  · have hrow : ((b.board.set p.1 ((b.board.getD p.1 []).set p.2 v)).getD p.1 []) =
        (b.board.getD p.1 []).set p.2 v :=
      list_getD_set_self _ _ _ _ h1
    cases b with
    | mk size board last =>
      simp only at hrow ⊢
      congr 1
      rw [hrow, List.set_set, List.set_set]
      by_cases h2 : p.2 < (board.getD p.1 []).length
      · rw [list_set_getD_self _ _ _ h2, list_set_getD_self _ _ _ h1]
      · rw [List.set_eq_of_length_le (not_lt.mp h2), list_set_getD_self _ _ _ h1]
  · cases b with
    | mk size board last =>
      simp only at h1 ⊢
      congr 1
      rw [List.set_eq_of_length_le (not_lt.mp h1), List.set_eq_of_length_le (not_lt.mp h1)]

end BoardManager

namespace Strategies

open BoardManager

/-! ### Pure ranking keys: the net value each stateful metric computes -/

/-- The ranking key of `strategy_maximize_future_min`'s metric, as a pure
function of the board the strategy was entered with: candidate value minus
the minimum value among the opponent's legal replies on the board with the
candidate cleared (0 when there are none), tie-broken by the candidate value. -/
def mfm_key (b : BoardManager) (pos : Position) : Int ×ₗ Int :=
  let val_now : Int := (b.get_value pos).getD 0
  let b1 := b.setCell pos none
  let opp := b1.get_allowed_positions pos
  let min_opp : Int :=
    match opp.map (fun p => (b1.get_value p).getD 0) with
    | [] => 0
    | v :: vs => vs.foldl min v
  toLex (val_now - min_opp, val_now)

/-- The ranking key of `strategy_minimize_opponent_options`'s metric:
negated count of the opponent's legal replies after clearing the candidate,
tie-broken by the candidate value. -/
def moo_key (b : BoardManager) (pos : Position) : Int ×ₗ Int :=
  let b1 := b.setCell pos none
  let opp := b1.get_allowed_positions pos
  toLex (-(opp.length : Int), (b.get_value pos).getD 0)

/-- The ranking key of `strategy_high_value_preservation`'s metric for a given
precomputed global maximum: negated exposure flag, negated count of opponent
replies equal to the maximum, then the candidate value. -/
def hvp_key (global_max : Int) (b : BoardManager) (pos : Position) : Int ×ₗ Int ×ₗ Int :=
  let b1 := b.setCell pos none
  let opp := b1.get_allowed_positions pos
  let hitsPair : Int × Int := opp.foldl
    (fun acc p => if (b1.get_value p).getD 0 = global_max then (1, acc.2 + 1) else acc)
    (0, 0)
  toLex (-hitsPair.1, toLex (-hitsPair.2, (b.get_value pos).getD 0))

/-- The greedy ranking key: the candidate's immediate value. -/
def greedy_key (b : BoardManager) (pos : Position) : Int :=
  (b.get_value pos).getD 0

/-- The maximize-future-min metric restores the board exactly and computes
its pure key. -/
theorem mfm_metricS_eq (b : BoardManager) (pos : Position) :
    mfm_metricS b pos = (mfm_key b pos, b) := by
  unfold mfm_metricS mfm_key
  simp only [setCell_restore]

/-- The minimize-opponent-options metric restores the board exactly and
computes its pure key. -/
theorem moo_metricS_eq (b : BoardManager) (pos : Position) :
    moo_metricS b pos = (moo_key b pos, b) := by
  unfold moo_metricS moo_key
  simp only [setCell_restore]

/-- The high-value-preservation metric restores the board exactly and
computes its pure key. -/
theorem hvp_metricS_eq (global_max : Int) (b : BoardManager) (pos : Position) :
    hvp_metricS global_max b pos = (hvp_key global_max b pos, b) := by
  unfold hvp_metricS hvp_key
  simp only [setCell_restore]

/-! ### Characterization of `_best_by_key` -/

/-- A board-preserving metric makes the stateful selection loop compute the
pure one, leaving the board untouched. -/
theorem bestAuxS_pure {κ : Type} [LinearOrder κ] (f : BoardManager → Position → κ × BoardManager)
    (g : Position → κ) (b : BoardManager) (hf : ∀ p, f b p = (g p, b)) :
    ∀ (xs : List Position) (best : Position) (k : κ),
      bestAuxS f b best k xs = (bestAux g best k xs, b) := by
  intro xs
  induction xs with
  | nil => intro best k; rfl
  | cons x xs ih =>
    intro best k
    simp only [bestAuxS, bestAux, hf x]
    by_cases h : k < g x
    · simp only [if_pos h, ih]
    · simp only [if_neg h, ih]

/-- `_best_by_key` with a board-preserving metric, on a non-empty candidate
list: the first candidate seeds the loop, the board comes back unchanged. -/
theorem bestByKeyS_cons {κ : Type} [LinearOrder κ] (f : BoardManager → Position → κ × BoardManager)
    (g : Position → κ) (b : BoardManager) (hf : ∀ p, f b p = (g p, b))
    (x : Position) (xs : List Position) :
    bestByKeyS f b (x :: xs) = some (bestAux g x (g x) xs, b) := by
  simp only [bestByKeyS, hf x]
  exact congrArg some (bestAuxS_pure f g b hf xs x (g x))

/-- The pure selection loop returns the first candidate attaining the maximal
key: the seeded list splits at the result, everything before it has a strictly
smaller key, and nothing in the list has a larger one. -/
theorem bestAux_spec {κ : Type} [LinearOrder κ] (g : Position → κ) :
    ∀ (xs : List Position) (best : Position),
      ∃ l1 l2, best :: xs = l1 ++ (bestAux g best (g best) xs) :: l2 ∧
        (∀ y ∈ l1, g y < g (bestAux g best (g best) xs)) ∧
        (∀ y ∈ best :: xs, g y ≤ g (bestAux g best (g best) xs)) := by
  intro xs
  induction xs with
  | nil =>
    intro best
    refine ⟨[], [], rfl, by simp, ?_⟩
    intro y hy
    rw [List.mem_singleton] at hy
    subst hy
    exact le_refl _
  | cons x xs ih =>
    intro best
    by_cases h : g best < g x
    · have hh : bestAux g best (g best) (x :: xs) = bestAux g x (g x) xs := by
        simp [bestAux, h]
      rw [hh]
      obtain ⟨l1, l2, hdec, hlt, hle⟩ := ih x
      have hxr : g x ≤ g (bestAux g x (g x) xs) := hle x (List.mem_cons_self x xs)
      refine ⟨best :: l1, l2, ?_, ?_, ?_⟩
      · rw [List.cons_append, ← hdec]
      · intro y hy
        rcases List.mem_cons.mp hy with hy | hy
        · subst hy; exact lt_of_lt_of_le h hxr
        · exact hlt y hy
      · intro y hy
        rcases List.mem_cons.mp hy with hy | hy
        · subst hy; exact le_of_lt (lt_of_lt_of_le h hxr)
        · exact hle y hy
    · have hh : bestAux g best (g best) (x :: xs) = bestAux g best (g best) xs := by
        simp [bestAux, h]
      rw [hh]
      have hxb : g x ≤ g best := not_lt.mp h
      obtain ⟨l1, l2, hdec, hlt, hle⟩ := ih best
      have hbr : g best ≤ g (bestAux g best (g best) xs) := hle best (List.mem_cons_self best xs)
      cases l1 with
      | nil =>
        have hr : bestAux g best (g best) xs = best := by
          have := hdec
          simp only [List.nil_append] at this
          exact (List.cons.injEq _ _ _ _ ▸ this).1.symm
        refine ⟨[], x :: xs, ?_, by simp, ?_⟩
        · rw [hr, List.nil_append]
        · intro y hy
          rw [hr]
          rcases List.mem_cons.mp hy with hy | hy
          · subst hy; exact le_refl _
          · rcases List.mem_cons.mp hy with hy | hy
            · subst hy; exact hxb
            · have := hle y (List.mem_cons_of_mem _ hy)
              rw [hr] at this
              exact this
      | cons b0 t =>
        have hinj := hdec
        simp only [List.cons_append] at hinj
        have hb0 : b0 = best := ((List.cons.injEq _ _ _ _).mp hinj).1.symm
        have hxs : xs = t ++ bestAux g best (g best) xs :: l2 :=
          ((List.cons.injEq _ _ _ _).mp hinj).2
        have hblt : g best < g (bestAux g best (g best) xs) := by
          have := hlt b0 (List.mem_cons_self b0 t)
          rwa [hb0] at this
        refine ⟨best :: x :: t, l2, ?_, ?_, ?_⟩
        · simp only [List.cons_append, ← hxs]
        · intro y hy
          rcases List.mem_cons.mp hy with hy | hy
          · subst hy; exact hblt
          · rcases List.mem_cons.mp hy with hy | hy
            · subst hy; exact lt_of_le_of_lt hxb hblt
            · exact hlt y (List.mem_cons_of_mem _ hy)
        · intro y hy
          rcases List.mem_cons.mp hy with hy | hy
          · subst hy; exact hbr
          · rcases List.mem_cons.mp hy with hy | hy
            · subst hy; exact le_trans hxb hbr
            · exact hle y (List.mem_cons_of_mem _ hy)

/-- Full characterization of `_best_by_key` with a board-preserving metric on
a non-empty candidate list: it returns the first candidate with the maximal
key, and the board unchanged. -/
theorem bestByKeyS_spec {κ : Type} [LinearOrder κ]
    (f : BoardManager → Position → κ × BoardManager) (g : Position → κ)
    (b : BoardManager) (hf : ∀ p, f b p = (g p, b))
    (l : List Position) (hne : l ≠ []) :
    ∃ p, bestByKeyS f b l = some (p, b) ∧
      (∃ l1 l2, l = l1 ++ p :: l2 ∧ ∀ y ∈ l1, g y < g p) ∧
      (∀ y ∈ l, g y ≤ g p) := by
  match l, hne with
  | x :: xs, _ =>
    obtain ⟨l1, l2, hdec, hlt, hle⟩ := bestAux_spec g xs x
    exact ⟨bestAux g x (g x) xs, bestByKeyS_cons f g b hf x xs, ⟨l1, l2, hdec, hlt⟩, hle⟩

end Strategies

namespace BoardManager

/-! ### Membership, distinctness and order of the legality sets -/

/-- Row-major enumeration order on positions. -/
def row_major_lt (p q : Position) : Prop :=
  p.1 < q.1 ∨ (p.1 = q.1 ∧ p.2 < q.2)

/-- Enumeration order of `get_allowed_positions` relative to `lp`: the cells
of `lp`'s row in ascending column order, then the other cells of `lp`'s
column in ascending row order. -/
def allowed_order (lp : Position) (p q : Position) : Prop :=
  (p.1 = lp.1 ∧ q.1 = lp.1 ∧ p.2 < q.2) ∨
  (p.1 = lp.1 ∧ q.1 ≠ lp.1) ∨
  (p.1 ≠ lp.1 ∧ q.1 ≠ lp.1 ∧ p.1 < q.1)

theorem row_major_lt_ne {p q : Position} (h : row_major_lt p q) : p ≠ q := by
  rcases h with h | ⟨h1, h2⟩
  · intro he; rw [he] at h; exact lt_irrefl _ h
  · intro he; rw [he] at h2; exact lt_irrefl _ h2

theorem allowed_order_ne {lp p q : Position} (h : allowed_order lp p q) : p ≠ q := by
  rcases h with ⟨_, _, h2⟩ | ⟨h1, h2⟩ | ⟨_, _, h2⟩
  · intro he; rw [he] at h2; exact lt_irrefl _ h2
  · intro he; rw [he] at h1; exact h2 h1
  · intro he; rw [he] at h2; exact lt_irrefl _ h2

/-- A position is listed by `get_all_available_positions` iff it is available. -/
theorem mem_get_all_available (b : BoardManager) (p : Position) :
    p ∈ b.get_all_available_positions ↔ b.is_available p = true := by
  unfold get_all_available_positions is_available in_bounds
  simp only [List.mem_flatMap, List.mem_filterMap, List.mem_range,
    Option.ite_none_right_eq_some, Option.some.injEq, Bool.and_eq_true, decide_eq_true_eq]
  constructor
  · rintro ⟨r, hr, c, hc, hs, he⟩
    rw [← he]
    exact ⟨⟨hr, hc⟩, hs⟩
  · rintro ⟨⟨h1, h2⟩, hs⟩
    exact ⟨p.1, h1, p.2, h2, hs, rfl⟩

/-- For an in-bounds `lp`, a position is listed by `get_allowed_positions lp`
iff it is available and shares `lp`'s row or column. -/
theorem mem_get_allowed (b : BoardManager) (lp : Position)
    (h1 : lp.1 < b.size) (h2 : lp.2 < b.size) (p : Position) :
    p ∈ b.get_allowed_positions lp ↔
      b.is_available p = true ∧ (p.1 = lp.1 ∨ p.2 = lp.2) := by
  unfold get_allowed_positions is_available in_bounds
  simp only [List.mem_append, List.mem_filterMap, List.mem_range,
    Option.ite_none_right_eq_some, Option.some.injEq, Bool.and_eq_true, decide_eq_true_eq]
  constructor
  · rintro (⟨c, hc, hs, he⟩ | ⟨r, hr, ⟨hne, hs⟩, he⟩)
    · rw [← he]
      exact ⟨⟨⟨h1, hc⟩, hs⟩, Or.inl rfl⟩
    · rw [← he]
      exact ⟨⟨⟨hr, h2⟩, hs⟩, Or.inr rfl⟩
  · rintro ⟨⟨⟨hp1, hp2⟩, hs⟩, hrc⟩
    by_cases hrow : p.1 = lp.1
    · left
      have hpe : (lp.1, p.2) = p := by rw [← hrow]
      refine ⟨p.2, hp2, ?_, hpe⟩
      rw [hpe]
      exact hs
    · right
      rcases hrc with hrc | hrc
      · exact absurd hrc hrow
      · have hpe : (p.1, lp.2) = p := by rw [← hrc]
        refine ⟨p.1, hp1, ⟨hrow, ?_⟩, hpe⟩
        rw [hpe]
        exact hs

/-- `get_all_available_positions` is strictly row-major ordered. -/
theorem pairwise_get_all_available (b : BoardManager) :
    List.Pairwise row_major_lt b.get_all_available_positions := by
  unfold get_all_available_positions
  rw [List.pairwise_flatMap]
  constructor
  · intro r _
    rw [List.pairwise_filterMap]
    apply List.Pairwise.imp ?_ (List.pairwise_lt_range b.size)
    intro c c' hlt x hx y hy
    rw [Option.mem_def, Option.ite_none_right_eq_some, Option.some.injEq] at hx hy
    rw [← hx.2, ← hy.2]
    exact Or.inr ⟨rfl, hlt⟩
  · apply List.Pairwise.imp ?_ (List.pairwise_lt_range b.size)
    intro r r' hlt x hx y hy
    rw [List.mem_filterMap] at hx hy
    obtain ⟨c, _, hx⟩ := hx
    obtain ⟨c', _, hy⟩ := hy
    rw [Option.ite_none_right_eq_some, Option.some.injEq] at hx hy
    rw [← hx.2, ← hy.2]
    exact Or.inl hlt

/-- `get_allowed_positions` enumerates the row cells (ascending column) and
then the other column cells (ascending row). -/
theorem pairwise_get_allowed (b : BoardManager) (lp : Position) :
    List.Pairwise (allowed_order lp) (b.get_allowed_positions lp) := by
  unfold get_allowed_positions
  rw [List.pairwise_append]
  refine ⟨?_, ?_, ?_⟩
  · rw [List.pairwise_filterMap]
    apply List.Pairwise.imp ?_ (List.pairwise_lt_range b.size)
    intro c c' hlt x hx y hy
    rw [Option.mem_def, Option.ite_none_right_eq_some, Option.some.injEq] at hx hy
    rw [← hx.2, ← hy.2]
    exact Or.inl ⟨rfl, rfl, hlt⟩
  · rw [List.pairwise_filterMap]
    apply List.Pairwise.imp ?_ (List.pairwise_lt_range b.size)
    intro r r' hlt x hx y hy
    rw [Option.mem_def, Option.ite_none_right_eq_some, Option.some.injEq] at hx hy
    rw [← hx.2, ← hy.2]
    exact Or.inr (Or.inr ⟨hx.1.1, hy.1.1, hlt⟩)
  · intro x hx y hy
    rw [List.mem_filterMap] at hx hy
    obtain ⟨c, _, hx⟩ := hx
    obtain ⟨r, _, hy⟩ := hy
    rw [Option.ite_none_right_eq_some, Option.some.injEq] at hx hy
    rw [← hx.2, ← hy.2]
    exact Or.inr (Or.inl ⟨rfl, hy.1.1⟩)

/-- The opening-move legal set has no duplicates. -/
theorem nodup_get_all_available (b : BoardManager) :
    b.get_all_available_positions.Nodup :=
  (pairwise_get_all_available b).imp row_major_lt_ne

/-- The row/column legal set has no duplicates. -/
theorem nodup_get_allowed (b : BoardManager) (lp : Position) :
    (b.get_allowed_positions lp).Nodup :=
  (pairwise_get_allowed b lp).imp allowed_order_ne

end BoardManager

namespace BoardManager

/-! ### Removal, cell counting, and the shape invariant -/

/-- `remove_and_get` on an available position: the returned value is the
cell's current value, the cell is cleared, the removal is recorded. -/
theorem remove_and_get_ok {b : BoardManager} {p : Position} (h : b.is_available p = true) :
    b.remove_and_get p =
      .ok ((b.cellAt p).getD 0, { b.setCell p none with last_removed_pos := some p }) := by
  unfold remove_and_get
  rw [if_neg (by simp [h])]

/-- `remove_and_get` on an unavailable position fails. -/
theorem remove_and_get_fail {b : BoardManager} {p : Position} (h : ¬ b.is_available p = true) :
    b.remove_and_get p = .error "Attempted to remove unavailable position" := by
  unfold remove_and_get
  rw [if_pos (by simp [h])]

/-- Clearing a held cell decreases a row's live-cell count by exactly one. -/
theorem countP_set_none (row : List (Option Int)) (c : Nat) (h : (row.getD c none).isSome) :
    (row.set c none).countP (fun cell => cell.isSome) + 1 =
      row.countP (fun cell => cell.isSome) := by
  induction row generalizing c with
  | nil => simp [List.getD] at h
  | cons x xs ih =>
    cases c with
    | zero =>
      simp only [List.getD_cons_zero] at h
      rw [List.set_cons_zero, List.countP_cons_of_neg _ _ (by simp),
        List.countP_cons_of_pos _ _ (by simpa using h)]
    | succ c =>
      simp only [List.getD_cons_succ] at h
      rw [List.set_cons_succ]
      by_cases hx : (x : Option Int).isSome
      · rw [List.countP_cons_of_pos _ _ (by simpa using hx),
          List.countP_cons_of_pos _ _ (by simpa using hx)]
        have := ih c h
        omega
      · rw [List.countP_cons_of_neg _ _ (by simpa using hx),
          List.countP_cons_of_neg _ _ (by simpa using hx)]
        exact ih c h

/-- Replacing one row changes the summed row statistic by that row's delta. -/
theorem sum_map_set (f : List (Option Int) → Nat) (g : List (List (Option Int)))
    (r : Nat) (x : List (Option Int)) (h : r < g.length) :
    ((g.set r x).map f).sum + f (g.getD r []) = (g.map f).sum + f x := by
  induction g generalizing r with
  | nil => simp at h
  | cons y ys ih =>
    cases r with
    | zero => simp [List.set_cons_zero]; omega
    | succ r =>
      simp only [List.set_cons_succ, List.map_cons, List.sum_cons, List.getD_cons_succ]
      have := ih r (by simpa using h)
      omega

/-- Clearing a held cell decreases the board's available count by one. -/
theorem countAvailable_setCell_none {b : BoardManager} {p : Position}
    (h : (b.cellAt p).isSome) :
    (b.setCell p none).countAvailable + 1 = b.countAvailable := by
  have hr : p.1 < b.board.length := cellAt_row_lt h
  have hrow : ((b.board.getD p.1 []).getD p.2 none).isSome := h
  have h1 := sum_map_set (fun row => row.countP fun cell => cell.isSome) b.board p.1
    ((b.board.getD p.1 []).set p.2 none) hr
  have h2 := countP_set_none (b.board.getD p.1 []) p.2 hrow
  unfold countAvailable setCell
  simp only
  beta_reduce at h1
  omega

/-- `setCell` preserves the shape invariant. -/
theorem WF_setCell {b : BoardManager} (hWF : b.WF) (p : Position) (v : Option Int) :
    (b.setCell p v).WF := by
  obtain ⟨hlen, hrows⟩ := hWF
  by_cases hr : p.1 < b.board.length
  · refine ⟨by simp [setCell, hlen], ?_⟩
    intro row hrow
    simp only [setCell] at hrow
    rcases List.mem_or_eq_of_mem_set hrow with hmem | heq
    · exact hrows row hmem
    · subst heq
      rw [List.length_set]
      refine hrows _ ?_
      rw [List.getD_eq_getElem _ _ hr]
      exact List.getElem_mem hr
  · refine ⟨by simp [setCell, hlen], ?_⟩
    intro row hrow
    simp only [setCell, List.set_eq_of_length_le (not_lt.mp hr)] at hrow
    exact hrows row hrow

/-! ### Shape of constructed boards -/

theorem randRow_length (n : Nat) (st : Nat) : (randRow n st).1.length = n := by
  induction n generalizing st with
  | zero => rfl
  | succ n ih => simp [randRow, ih]

theorem randGrid_length (size n : Nat) (st : Nat) : (randGrid size n st).1.length = n := by
  induction n generalizing st with
  | zero => rfl
  | succ n ih => simp [randGrid, ih]

theorem randGrid_row_length (size n : Nat) (st : Nat) :
    ∀ row ∈ (randGrid size n st).1, row.length = size := by
  induction n generalizing st with
  | zero => intro row h; simp [randGrid] at h
  | succ n ih =>
    intro row h
    simp only [randGrid, List.mem_cons] at h
    rcases h with h | h
    · rw [h]; exact randRow_length size _
    · exact ih _ row h

/-- Every successfully constructed board satisfies the shape invariant and
records the requested size. -/
theorem init_WF {entropy : Int} {n : Nat} {seed : Option Int} {preset : Option (List Int)}
    {b : BoardManager} (h : init entropy n seed preset = .ok b) :
    b.WF ∧ b.size = n ∧ b.last_removed_pos = none := by
  unfold init _init_board at h
  cases preset with
  | none =>
    simp only at h
    cases h
    refine ⟨⟨randGrid_length n n _, randGrid_row_length n n _⟩, rfl, rfl⟩
  | some pb =>
    simp only at h
    by_cases hlen : pb.length ≠ n * n
    · rw [if_pos hlen] at h
      cases h
    · rw [if_neg hlen] at h
      cases h
      refine ⟨⟨by simp, ?_⟩, rfl, rfl⟩
      intro row hrow
      simp only [List.mem_map, List.mem_range] at hrow
      obtain ⟨r, _, hr⟩ := hrow
      rw [← hr]
      simp

/-- A bound on a mapped sum from a uniform bound on the entries. -/
theorem sum_map_le {α : Type} (f : α → Nat) (l : List α) (k : Nat)
    (h : ∀ x ∈ l, f x ≤ k) : (l.map f).sum ≤ l.length * k := by
  induction l with
  | nil => simp
  | cons x xs ih =>
    simp only [List.map_cons, List.sum_cons, List.length_cons]
    have h1 : f x ≤ k := h x (List.mem_cons_self x xs)
    have h2 : (xs.map f).sum ≤ xs.length * k := ih fun y hy => h y (List.mem_cons_of_mem _ hy)
    calc f x + (xs.map f).sum ≤ k + xs.length * k := by omega
    _ = (xs.length + 1) * k := by ring

/-- A well-formed board holds at most `size * size` available cells. -/
theorem countAvailable_le {b : BoardManager} (hWF : b.WF) :
    b.countAvailable ≤ b.size * b.size := by
  obtain ⟨hlen, hrows⟩ := hWF
  unfold countAvailable
  calc (b.board.map fun row => row.countP fun cell => cell.isSome).sum
      ≤ b.board.length * b.size := by
        apply sum_map_le
        intro row hrow
        rw [← hrows row hrow]
        exact List.countP_le_length _
    _ = b.size * b.size := by rw [hlen]

/-- On a well-formed board, every member of the legal set is available. -/
theorem mem_legal_available {b : BoardManager} (hWF : b.WF) {lp : Option Position}
    {p : Position} (h : p ∈ b.legal_set lp) : b.is_available p = true := by
  obtain ⟨hlen, hrows⟩ := hWF
  cases lp with
  | none => exact (mem_get_all_available b p).mp h
  | some lp =>
    unfold legal_set get_allowed_positions at h
    simp only [List.mem_append, List.mem_filterMap, List.mem_range,
      Option.ite_none_right_eq_some, Option.some.injEq] at h
    rcases h with ⟨c, hc, hs, he⟩ | ⟨r, hr, ⟨hne, hs⟩, he⟩
    · have hrow : lp.1 < b.board.length := cellAt_row_lt (p := (lp.1, c)) hs
      rw [← he]
      unfold is_available in_bounds
      simp only [Bool.and_eq_true, decide_eq_true_eq]
      exact ⟨⟨by omega, hc⟩, hs⟩
    · have hcol : lp.2 < (b.board.getD r []).length := cellAt_col_lt (p := (r, lp.2)) hs
      have hrlt : r < b.board.length := cellAt_row_lt (p := (r, lp.2)) hs
      have hrowlen : (b.board.getD r []).length = b.size := by
        refine hrows _ ?_
        rw [List.getD_eq_getElem _ _ hrlt]
        exact List.getElem_mem hrlt
      rw [← he]
      unfold is_available in_bounds
      simp only [Bool.and_eq_true, decide_eq_true_eq]
      exact ⟨⟨by omega, by omega⟩, hs⟩

end BoardManager

namespace GameEngine

open BoardManager

/-- A move source that serves the turn loop correctly: whenever the legal set
is non-empty it produces a move from it.  The four strategies satisfy this
(they pick from the legal set), and so does validated human input. -/
def GoodChooser (choose : BoardManager → Option Position → Option Position) : Prop :=
  ∀ b lp, b.legal_set lp ≠ [] → ∃ m, choose b lp = some m ∧ m ∈ b.legal_set lp

theorem start_game_loop_empty (chooseA chooseB : BoardManager → Option Position → Option Position)
    (fuel : Nat) (st : GameState) (h : st.board.legal_set st.last_pos = []) :
    start_game_loop chooseA chooseB (fuel + 1) st =
      some { a_score := st.a_score, b_score := st.b_score, rounds := st.round_num,
             winner := winner_of st.a_score st.b_score } := by
  rw [start_game_loop]
  simp [h]

theorem start_game_loop_move (chooseA chooseB : BoardManager → Option Position → Option Position)
    (fuel : Nat) (st : GameState) (move : Position) (val : Int) (b' : BoardManager)
    (hne : ¬ st.board.legal_set st.last_pos = [])
    (hchoose : (if st.current_A then chooseA else chooseB) st.board st.last_pos = some move)
    (hremove : st.board.remove_and_get move = .ok (val, b')) :
    start_game_loop chooseA chooseB (fuel + 1) st =
      start_game_loop chooseA chooseB fuel
        { board := b', last_pos := some move,
          a_score := if st.current_A then st.a_score + val else st.a_score,
          b_score := if st.current_A then st.b_score else st.b_score + val,
          round_num := st.round_num + 1, current_A := ! st.current_A } := by
  rw [start_game_loop]
  simp [hne, hchoose, hremove]

/-- Core termination argument: with more fuel than available cells, the turn
loop reaches game over, and plays at most one round per available cell. -/
theorem loop_terminates (chooseA chooseB : BoardManager → Option Position → Option Position)
    (hA : GoodChooser chooseA) (hB : GoodChooser chooseB) :
    ∀ (fuel : Nat) (st : GameState), st.board.WF → st.board.countAvailable < fuel →
      ∃ res, start_game_loop chooseA chooseB fuel st = some res ∧
        res.rounds ≤ st.round_num + st.board.countAvailable := by
  intro fuel
  induction fuel with
  | zero => intro st _ h; omega
  | succ fuel ih =>
    intro st hWF hcount
    by_cases hempty : st.board.legal_set st.last_pos = []
    · exact ⟨_, start_game_loop_empty chooseA chooseB fuel st hempty, by simp⟩
    · have hgood : GoodChooser (if st.current_A then chooseA else chooseB) := by
        cases st.current_A
        · simpa using hB
        · simpa using hA
      obtain ⟨m, hm, hmem⟩ := hgood st.board st.last_pos hempty
      have havail : st.board.is_available m = true := mem_legal_available hWF hmem
      have hsome : (st.board.cellAt m).isSome := by
        unfold is_available at havail
        simp only [Bool.and_eq_true] at havail
        exact havail.2
      have hremove := remove_and_get_ok havail
      set b' : BoardManager :=
        { st.board.setCell m none with last_removed_pos := some m } with hb'
      have hWF' : b'.WF := WF_setCell hWF m none
      have hcount' : b'.countAvailable + 1 = st.board.countAvailable :=
        countAvailable_setCell_none hsome
      set st' : GameState :=
        { board := b', last_pos := some m,
          a_score := if st.current_A then st.a_score + (st.board.cellAt m).getD 0 else st.a_score,
          b_score := if st.current_A then st.b_score else st.b_score + (st.board.cellAt m).getD 0,
          round_num := st.round_num + 1, current_A := ! st.current_A } with hst'
      obtain ⟨res, hres, hrounds⟩ := ih st' hWF' (by simp [hst']; omega)
      refine ⟨res, ?_, ?_⟩
      · rw [start_game_loop_move chooseA chooseB fuel st m ((st.board.cellAt m).getD 0) b'
          hempty hm hremove]
        exact hres
      · simp only [hst'] at hrounds
        omega

end GameEngine

namespace Strategies

open BoardManager

/-- Characterization of the greedy strategy: on a non-empty legal set it
returns the first candidate with maximal immediate value, board unchanged. -/
theorem greedy_spec (b : BoardManager) (lp : Option Position) (hne : b.legal_set lp ≠ []) :
    ∃ p, strategy_greedy_maximize b lp = some (p, b) ∧ p ∈ b.legal_set lp ∧
      (∃ l1 l2, b.legal_set lp = l1 ++ p :: l2 ∧ ∀ y ∈ l1, greedy_key b y < greedy_key b p) ∧
      (∀ y ∈ b.legal_set lp, greedy_key b y ≤ greedy_key b p) := by
  obtain ⟨p, hrun, ⟨l1, l2, hdec, hlt⟩, hle⟩ :=
    bestByKeyS_spec (fun b' p => (((b'.get_value p).getD 0 : Int), b'))
      (greedy_key b) b (fun _ => rfl) (b.legal_set lp) hne
  exact ⟨p, hrun, by rw [hdec]; exact List.mem_append_right _ (List.mem_cons_self p l2),
    ⟨l1, l2, hdec, hlt⟩, hle⟩

/-- Characterization of maximize-future-min: the first candidate with maximal
`mfm_key`, board unchanged. -/
theorem mfm_spec (b : BoardManager) (lp : Option Position) (hne : b.legal_set lp ≠ []) :
    ∃ p, strategy_maximize_future_min b lp = some (p, b) ∧ p ∈ b.legal_set lp ∧
      (∃ l1 l2, b.legal_set lp = l1 ++ p :: l2 ∧ ∀ y ∈ l1, mfm_key b y < mfm_key b p) ∧
      (∀ y ∈ b.legal_set lp, mfm_key b y ≤ mfm_key b p) := by
  obtain ⟨p, hrun, ⟨l1, l2, hdec, hlt⟩, hle⟩ :=
    bestByKeyS_spec mfm_metricS (mfm_key b) b (mfm_metricS_eq b) (b.legal_set lp) hne
  exact ⟨p, hrun, by rw [hdec]; exact List.mem_append_right _ (List.mem_cons_self p l2),
    ⟨l1, l2, hdec, hlt⟩, hle⟩

/-- Characterization of minimize-opponent-options: the first candidate with
maximal `moo_key`, board unchanged. -/
theorem moo_spec (b : BoardManager) (lp : Option Position) (hne : b.legal_set lp ≠ []) :
    ∃ p, strategy_minimize_opponent_options b lp = some (p, b) ∧ p ∈ b.legal_set lp ∧
      (∃ l1 l2, b.legal_set lp = l1 ++ p :: l2 ∧ ∀ y ∈ l1, moo_key b y < moo_key b p) ∧
      (∀ y ∈ b.legal_set lp, moo_key b y ≤ moo_key b p) := by
  obtain ⟨p, hrun, ⟨l1, l2, hdec, hlt⟩, hle⟩ :=
    bestByKeyS_spec moo_metricS (moo_key b) b (moo_metricS_eq b) (b.legal_set lp) hne
  exact ⟨p, hrun, by rw [hdec]; exact List.mem_append_right _ (List.mem_cons_self p l2),
    ⟨l1, l2, hdec, hlt⟩, hle⟩

/-- Characterization of high-value-preservation: the first candidate with
maximal `hvp_key` for the precomputed global maximum, board unchanged. -/
theorem hvp_spec (b : BoardManager) (lp : Option Position) (hne : b.legal_set lp ≠ []) :
    ∃ p, strategy_high_value_preservation b lp = some (p, b) ∧ p ∈ b.legal_set lp ∧
      (∃ l1 l2, b.legal_set lp = l1 ++ p :: l2 ∧
        ∀ y ∈ l1, hvp_key b.max_remaining_value b y < hvp_key b.max_remaining_value b p) ∧
      (∀ y ∈ b.legal_set lp,
        hvp_key b.max_remaining_value b y ≤ hvp_key b.max_remaining_value b p) := by
  obtain ⟨p, hrun, ⟨l1, l2, hdec, hlt⟩, hle⟩ :=
    bestByKeyS_spec (hvp_metricS b.max_remaining_value) (hvp_key b.max_remaining_value b) b
      (hvp_metricS_eq b.max_remaining_value b) (b.legal_set lp) hne
  exact ⟨p, hrun, by rw [hdec]; exact List.mem_append_right _ (List.mem_cons_self p l2),
    ⟨l1, l2, hdec, hlt⟩, hle⟩

/-- Turn a strategy into a move source for the turn loop, as the engine does
(`move = strat(board, last_pos)`). -/
def chooserOf (strat : BoardManager → Option Position → Option (Position × BoardManager)) :
    BoardManager → Option Position → Option Position :=
  fun b lp => (strat b lp).map Prod.fst

/-- The greedy strategy is a well-behaved move source. -/
theorem greedy_GoodChooser : GameEngine.GoodChooser (chooserOf strategy_greedy_maximize) := by
  intro b lp hne
  obtain ⟨p, hrun, hmem, _, _⟩ := greedy_spec b lp hne
  exact ⟨p, by rw [chooserOf, hrun]; rfl, hmem⟩

end Strategies

namespace Strategies

open BoardManager

/-- The claim's `opponent's legal replies`: the legal set recomputed from the
candidate's position after the candidate cell is (temporarily) cleared. -/
def spec_opponent_options (b : BoardManager) (pos : Position) : List Position :=
  (b.setCell pos none).get_allowed_positions pos

/-- The claim's `countOfGlobalMaxInOpponentReplies`: how many of the
opponent's legal replies hold a value equal to the given global maximum. -/
def spec_hvp_hits (global_max : Int) (b : BoardManager) (pos : Position) : Nat :=
  (spec_opponent_options b pos).countP
    fun p => decide (((b.setCell pos none).get_value p).getD 0 = global_max)

/-- The flag/count accumulator loop of `strategy_high_value_preservation`
computes exactly the hit count (and flags whether it is nonzero). -/
theorem hvp_fold_eq (gm : Int) (f : Position → Int) (l : List Position) (a k : Int) :
    l.foldl (fun acc p => if f p = gm then (1, acc.2 + 1) else acc) ((a : Int), (k : Int)) =
      (if l.countP (fun p => decide (f p = gm)) = 0 then a else 1,
       k + (l.countP (fun p => decide (f p = gm)) : Int)) := by
  induction l generalizing a k with
  | nil => simp
  | cons x xs ih =>
    simp only [List.foldl_cons]
    by_cases hx : f x = gm
    · rw [if_pos hx, ih]
      have hcnt : (x :: xs).countP (fun p => decide (f p = gm)) =
          xs.countP (fun p => decide (f p = gm)) + 1 :=
        List.countP_cons_of_pos _ _ (by simp [hx])
      rw [hcnt, if_neg (Nat.succ_ne_zero _), ite_self]
      refine congrArg _ ?_
      push_cast
      ring
    · rw [if_neg hx, ih]
      have hcnt : (x :: xs).countP (fun p => decide (f p = gm)) =
          xs.countP (fun p => decide (f p = gm)) :=
        List.countP_cons_of_neg _ _ (by simp [hx])
      rw [hcnt]

/-- The high-value-preservation key, written with the spec's hit count: the
flag is 1 exactly when the count is nonzero, and the tie-breaker is the
candidate's immediate value. -/
theorem hvp_key_eq (gm : Int) (b : BoardManager) (pos : Position) :
    hvp_key gm b pos =
      toLex (-(if spec_hvp_hits gm b pos = 0 then (0 : Int) else 1),
        toLex (-(spec_hvp_hits gm b pos : Int), (b.get_value pos).getD 0)) := by
  unfold hvp_key spec_hvp_hits spec_opponent_options
  simp only [hvp_fold_eq gm (fun p => ((b.setCell pos none).get_value p).getD 0)]
  simp

end Strategies

open BoardManager Strategies GameEngine

/-- The spec's worked 3×3 example board, preset `[1..9]` laid out row-major. -/
def exampleBoard3 : BoardManager :=
  { size := 3,
    board := [[some 1, some 2, some 3], [some 4, some 5, some 6], [some 7, some 8, some 9]],
    last_removed_pos := none }

/-- The example board after the opening move removed cell (0,0). -/
def exampleRemoved3 : BoardManager :=
  { size := 3,
    board := [[none, some 2, some 3], [some 4, some 5, some 6], [some 7, some 8, some 9]],
    last_removed_pos := some (0, 0) }

/-- C1: for every board and in-bounds `lastPos`, `get_allowed_positions`
lists exactly the available cells sharing `lastPos`'s row or column, without
duplicates, the row cells first in ascending column order and then the other
column cells in ascending row order; with no previous move,
`get_all_available_positions` lists exactly the available cells, without
duplicates, in row-major order. -/
theorem claim_C1 (b : BoardManager) (lp : Position)
    (h1 : lp.1 < b.size) (h2 : lp.2 < b.size) :
    (∀ p, p ∈ b.get_allowed_positions lp ↔
      b.is_available p = true ∧ (p.1 = lp.1 ∨ p.2 = lp.2)) ∧
    (b.get_allowed_positions lp).Nodup ∧
    List.Pairwise (allowed_order lp) (b.get_allowed_positions lp) ∧
    (∀ p, p ∈ b.get_all_available_positions ↔ b.is_available p = true) ∧
    b.get_all_available_positions.Nodup ∧
    List.Pairwise row_major_lt b.get_all_available_positions :=
  ⟨mem_get_allowed b lp h1 h2, nodup_get_allowed b lp, pairwise_get_allowed b lp,
   mem_get_all_available b, nodup_get_all_available b, pairwise_get_all_available b⟩

theorem claim_C1_witness :
    (((0, 0) : Position).1 < exampleRemoved3.size ∧
      ((0, 0) : Position).2 < exampleRemoved3.size) ∧
    ((0, 1) : Position) ∈ exampleRemoved3.get_allowed_positions (0, 0) :=
  ⟨⟨by decide, by decide⟩,
   ((claim_C1 exampleRemoved3 (0, 0) (by decide) (by decide)).1 (0, 1)).mpr (by decide)⟩

/-- C2: every one of the four strategies, called on a non-empty legal set,
returns its chosen position together with a board that is the entry board
itself — every simulated removal was restored, every cell and the
latest-removed field are unchanged. -/
theorem claim_C2 (b : BoardManager) (lp : Option Position) (hne : b.legal_set lp ≠ []) :
    (∃ p, strategy_greedy_maximize b lp = some (p, b)) ∧
    (∃ p, strategy_maximize_future_min b lp = some (p, b)) ∧
    (∃ p, strategy_minimize_opponent_options b lp = some (p, b)) ∧
    (∃ p, strategy_high_value_preservation b lp = some (p, b)) := by
  obtain ⟨p1, h1, -⟩ := greedy_spec b lp hne
  obtain ⟨p2, h2, -⟩ := mfm_spec b lp hne
  obtain ⟨p3, h3, -⟩ := moo_spec b lp hne
  obtain ⟨p4, h4, -⟩ := hvp_spec b lp hne
  exact ⟨⟨p1, h1⟩, ⟨p2, h2⟩, ⟨p3, h3⟩, ⟨p4, h4⟩⟩

theorem claim_C2_witness :
    exampleRemoved3.legal_set (some (0, 0)) ≠ [] ∧
    ((∃ p, strategy_greedy_maximize exampleRemoved3 (some (0, 0)) = some (p, exampleRemoved3)) ∧
     (∃ p, strategy_maximize_future_min exampleRemoved3 (some (0, 0)) =
        some (p, exampleRemoved3)) ∧
     (∃ p, strategy_minimize_opponent_options exampleRemoved3 (some (0, 0)) =
        some (p, exampleRemoved3)) ∧
     (∃ p, strategy_high_value_preservation exampleRemoved3 (some (0, 0)) =
        some (p, exampleRemoved3))) :=
  ⟨by decide, claim_C2 exampleRemoved3 (some (0, 0)) (by decide)⟩

/-- C3: `remove_and_get` fails exactly on out-of-bounds or already-removed
positions; on success it returns the cell's prior value, clears exactly that
cell, records it as the latest removal, and changes nothing else.  (On
failure the embedding returns only the error, so the caller's board — grid
and latest-removed field — is untouched by construction.) -/
theorem claim_C3 (b : BoardManager) (p : Position) :
    ((∃ e, b.remove_and_get p = .error e) ↔
      (¬ b.in_bounds p = true ∨ b.get_value p = none)) ∧
    (∀ v b', b.remove_and_get p = .ok (v, b') →
      b.get_value p = some v ∧ b'.get_value p = none ∧ b'.is_available p = false ∧
      b'.last_removed_pos = some p ∧ b'.size = b.size ∧
      ∀ q, q ≠ p → b'.get_value q = b.get_value q) := by
  constructor
  · constructor
    · intro he
      obtain ⟨e, he⟩ := he
      by_cases havail : b.is_available p = true
      · rw [remove_and_get_ok havail] at he
        cases he
      · unfold is_available at havail
        simp only [Bool.and_eq_true, not_and, Bool.not_eq_true] at havail
        by_cases hb : b.in_bounds p = true
        · right
          have := havail hb
          unfold get_value
          exact Option.not_isSome_iff_eq_none.mp (by simp [this])
        · exact Or.inl hb
    · intro hcase
      refine ⟨"Attempted to remove unavailable position", remove_and_get_fail ?_⟩
      unfold is_available
      rcases hcase with hb | hv
      · simp [hb]
      · unfold get_value at hv
        simp [hv]
  · intro v b' hok
    by_cases havail : b.is_available p = true
    · rw [remove_and_get_ok havail] at hok
      have hsome : (b.cellAt p).isSome := by
        unfold is_available at havail
        simp only [Bool.and_eq_true] at havail
        exact havail.2
      obtain ⟨v0, hv0⟩ := Option.isSome_iff_exists.mp hsome
      have hv : v = v0 := by
        injection hok with hok1
        injection hok1 with hval hbd
        rw [← hval, hv0]
        rfl
      have hbd : b' = { b.setCell p none with last_removed_pos := some p } := by
        injection hok with hok1
        injection hok1 with hval hbd
        exact hbd.symm
      subst hbd
      have hr := cellAt_row_lt hsome
      have hc := cellAt_col_lt hsome
      have hcleared : ({ b.setCell p none with last_removed_pos := some p } :
          BoardManager).cellAt p = none := cellAt_setCell_self none hr hc
      refine ⟨by rw [get_value, hv0, hv], hcleared, ?_, rfl, rfl, ?_⟩
      · unfold is_available
        rw [hcleared]
        simp
      · intro q hq
        exact cellAt_setCell_ne none hq
    · rw [remove_and_get_fail havail] at hok
      cases hok

theorem claim_C3_witness :
    exampleBoard3.get_value (0, 0) = some 1 ∧
    exampleRemoved3.get_value (2, 2) = exampleBoard3.get_value (2, 2) ∧
    (∃ e, exampleRemoved3.remove_and_get (0, 0) = .error e) := by
  have h := claim_C3 exampleBoard3 (0, 0)
  have hok := h.2 1 exampleRemoved3 (by rfl)
  have h2 := claim_C3 exampleRemoved3 (0, 0)
  exact ⟨hok.1, hok.2.2.2.2.2 (2, 2) (by decide), h2.1.mpr (Or.inr (by rfl))⟩

/-- C4: on a non-empty legal set, `strategy_maximize_future_min` returns (with
the board unchanged) the first-enumerated legal candidate whose key — immediate
value minus the minimum value among the opponent's legal replies after
simulating the candidate's removal (0 when the opponent has none), tie-broken
by immediate value, compared lexicographically — is maximal. -/
theorem claim_C4 (b : BoardManager) (lp : Position)
    (hne : b.get_allowed_positions lp ≠ []) :
    ∃ p, strategy_maximize_future_min b (some lp) = some (p, b) ∧
      p ∈ b.get_allowed_positions lp ∧
      (∀ q ∈ b.get_allowed_positions lp, mfm_key b q ≤ mfm_key b p) ∧
      ∃ l1 l2, b.get_allowed_positions lp = l1 ++ p :: l2 ∧
        ∀ q ∈ l1, mfm_key b q < mfm_key b p := by
  obtain ⟨p, hrun, hmem, hdec, hle⟩ := mfm_spec b (some lp) hne
  exact ⟨p, hrun, hmem, hle, hdec⟩

theorem claim_C4_witness :
    exampleRemoved3.get_allowed_positions (0, 0) ≠ [] ∧
    ∃ p, strategy_maximize_future_min exampleRemoved3 (some (0, 0)) =
        some (p, exampleRemoved3) ∧
      p ∈ exampleRemoved3.get_allowed_positions (0, 0) := by
  refine ⟨by decide, ?_⟩
  obtain ⟨p, h1, h2, -, -⟩ := claim_C4 exampleRemoved3 (0, 0) (by decide)
  exact ⟨p, h1, h2⟩

/-- C5: on a non-empty legal set, `strategy_high_value_preservation` returns
(with the board unchanged) the first-enumerated legal candidate maximizing
`(−exposesGlobalMax, −countOfGlobalMaxInOpponentReplies, immediate value)`
lexicographically, where the global maximum is `max_remaining_value` of the
board before any candidate is simulated (the same value reused for every
candidate), the count is the number of opponent replies (after simulating the
candidate) holding that maximum, and the flag is 1 exactly when that count is
nonzero, i.e. exactly when some opponent reply holds the pre-move maximum. -/
theorem claim_C5 (b : BoardManager) (lp : Position)
    (hne : b.get_allowed_positions lp ≠ []) :
    (∀ pos, hvp_key b.max_remaining_value b pos =
      toLex (-(if spec_hvp_hits b.max_remaining_value b pos = 0 then (0 : Int) else 1),
        toLex (-(spec_hvp_hits b.max_remaining_value b pos : Int),
          (b.get_value pos).getD 0))) ∧
    (∀ pos, 0 < spec_hvp_hits b.max_remaining_value b pos ↔
      ∃ q ∈ spec_opponent_options b pos,
        ((b.setCell pos none).get_value q).getD 0 = b.max_remaining_value) ∧
    ∃ p, strategy_high_value_preservation b (some lp) = some (p, b) ∧
      p ∈ b.get_allowed_positions lp ∧
      (∀ q ∈ b.get_allowed_positions lp,
        hvp_key b.max_remaining_value b q ≤ hvp_key b.max_remaining_value b p) ∧
      ∃ l1 l2, b.get_allowed_positions lp = l1 ++ p :: l2 ∧
        ∀ q ∈ l1, hvp_key b.max_remaining_value b q < hvp_key b.max_remaining_value b p := by
  refine ⟨fun pos => hvp_key_eq b.max_remaining_value b pos, ?_, ?_⟩
  · intro pos
    unfold spec_hvp_hits
    rw [List.countP_pos_iff]
    simp only [decide_eq_true_eq]
  · obtain ⟨p, hrun, hmem, hdec, hle⟩ := hvp_spec b (some lp) hne
    exact ⟨p, hrun, hmem, hle, hdec⟩

theorem claim_C5_witness :
    exampleRemoved3.get_allowed_positions (0, 0) ≠ [] ∧
    ∃ p, strategy_high_value_preservation exampleRemoved3 (some (0, 0)) =
        some (p, exampleRemoved3) ∧
      p ∈ exampleRemoved3.get_allowed_positions (0, 0) := by
  refine ⟨by decide, ?_⟩
  obtain ⟨-, -, p, h1, h2, -, -⟩ := claim_C5 exampleRemoved3 (0, 0) (by decide)
  exact ⟨p, h1, h2⟩

/-- C6: on any non-empty legal set, `strategy_greedy_maximize` returns (with
the board unchanged) the first-enumerated legal candidate of maximal
immediate value; and concretely, on the 3×3 preset board `[1..9]` after the
opening move removed (0,0), the legal set is `[(0,1),(0,2),(1,0),(2,0)]` and
greedy chooses (2,0), worth 7. -/
theorem claim_C6 (b : BoardManager) (lp : Option Position) (hne : b.legal_set lp ≠ []) :
    (∃ p, strategy_greedy_maximize b lp = some (p, b) ∧ p ∈ b.legal_set lp ∧
      (∀ q ∈ b.legal_set lp, greedy_key b q ≤ greedy_key b p) ∧
      ∃ l1 l2, b.legal_set lp = l1 ++ p :: l2 ∧
        ∀ q ∈ l1, greedy_key b q < greedy_key b p) ∧
    (init 0 3 none (some [1, 2, 3, 4, 5, 6, 7, 8, 9]) = .ok exampleBoard3 ∧
     exampleBoard3.remove_and_get (0, 0) = .ok (1, exampleRemoved3) ∧
     exampleRemoved3.legal_set (some (0, 0)) = [(0, 1), (0, 2), (1, 0), (2, 0)] ∧
     (strategy_greedy_maximize exampleRemoved3 (some (0, 0))).map
       (fun r => (r.1, exampleRemoved3.get_value r.1)) = some ((2, 0), some 7)) := by
  constructor
  · obtain ⟨p, h1, h2, hd, hl⟩ := greedy_spec b lp hne
    exact ⟨p, h1, h2, hl, hd⟩
  · exact ⟨by rfl, by rfl, by decide, by decide⟩

theorem claim_C6_witness :
    exampleBoard3.legal_set none ≠ [] ∧
    ∃ p, strategy_greedy_maximize exampleBoard3 none = some (p, exampleBoard3) ∧
      p ∈ exampleBoard3.legal_set none := by
  refine ⟨by decide, ?_⟩
  obtain ⟨⟨p, h1, h2, -, -⟩, -⟩ := claim_C6 exampleBoard3 none (by decide)
  exact ⟨p, h1, h2⟩

/-- The board the seeded generator model produces for size 2, seed 42. -/
def exampleRandom2 : BoardManager :=
  { size := 2, board := [[some 3, some 4], [some 4, some 6]], last_removed_pos := none }

/-- A 2×2 preset board for exercising the turn loop. -/
def exampleBoard2 : BoardManager :=
  { size := 2, board := [[some 1, some 2], [some 3, some 4]], last_removed_pos := none }

/-- C7: constructing two boards with the same size and the same seed (no
preset) yields identical grids, whatever entropy the unseeded fallback would
otherwise have contributed. -/
theorem claim_C7 (e1 e2 : Int) (n : Nat) (s : Int) (b1 b2 : BoardManager)
    (h1 : init e1 n (some s) none = .ok b1) (h2 : init e2 n (some s) none = .ok b2) :
    b1.board = b2.board := by
  unfold init _init_board at h1 h2
  simp only [Option.getD_some] at h1 h2
  cases h1
  cases h2
  rfl

theorem claim_C7_witness :
    init 0 2 (some 42) none = .ok exampleRandom2 ∧
    init 99 2 (some 42) none = .ok exampleRandom2 ∧
    exampleRandom2.board = exampleRandom2.board :=
  ⟨by rfl, by rfl, claim_C7 0 99 2 42 exampleRandom2 exampleRandom2 (by rfl) (by rfl)⟩

/-- C8: from any successfully constructed board (any size, seed or preset)
and any start player, with both move sources picking from the legal set
whenever it is non-empty (as the strategies do and as validated human input
does), the turn loop reaches game over within `size*size + 1` iterations,
having played at most `size*size` moves — each iteration either sees an
empty legal set and stops, or removes exactly one available cell. -/
theorem claim_C8 (entropy : Int) (n : Nat) (seed : Option Int) (preset : Option (List Int))
    (b : BoardManager) (hinit : init entropy n seed preset = .ok b) (startA : Bool)
    (chooseA chooseB : BoardManager → Option Position → Option Position)
    (hA : GoodChooser chooseA) (hB : GoodChooser chooseB) :
    ∃ res, start_game_loop chooseA chooseB (n * n + 1) (initState b startA) = some res ∧
      res.rounds ≤ n * n := by
  obtain ⟨hWF, hsize, -⟩ := init_WF hinit
  have hcount : b.countAvailable ≤ n * n := by
    have h := countAvailable_le hWF
    rw [hsize] at h
    exact h
  obtain ⟨res, hres, hrounds⟩ := loop_terminates chooseA chooseB hA hB (n * n + 1)
    (initState b startA) hWF (by simp [initState]; omega)
  refine ⟨res, hres, ?_⟩
  simp only [initState] at hrounds
  omega

theorem claim_C8_witness :
    init 0 2 none (some [1, 2, 3, 4]) = .ok exampleBoard2 ∧
    ∃ res, start_game_loop (chooserOf strategy_greedy_maximize)
        (chooserOf strategy_greedy_maximize) (2 * 2 + 1)
        (initState exampleBoard2 true) = some res ∧ res.rounds ≤ 2 * 2 :=
  ⟨by rfl,
   claim_C8 0 2 none (some [1, 2, 3, 4]) exampleBoard2 (by rfl) true
     (chooserOf strategy_greedy_maximize) (chooserOf strategy_greedy_maximize)
     greedy_GoodChooser greedy_GoodChooser⟩

/-- C9 as stated is refuted on the size clause: `BoardManager.__init__` never
validates `size`, so size 1 — forbidden by the construction contract — still
constructs successfully (with a length-1 preset). -/
theorem claim_C9_counterexample :
    ∃ b, init 0 1 none (some [5]) = .ok b ∧ b.size = 1 ∧ b.get_value (0, 0) = some 5 :=
  ⟨{ size := 1, board := [[some 5]], last_removed_pos := none }, by rfl, rfl, rfl⟩

/-- C9 (amended): construction fails exactly when a preset of the wrong
length is supplied — a preset of length `size*size` succeeds (recording the
requested size), a wrong length fails, errors arise from no other cause, and
in particular construction without a preset always succeeds whatever the
size, which is never validated. -/
theorem claim_C9 (entropy : Int) (n : Nat) (seed : Option Int) (pb : List Int) :
    (pb.length ≠ n * n → ∃ e, init entropy n seed (some pb) = .error e) ∧
    (pb.length = n * n → ∃ b, init entropy n seed (some pb) = .ok b ∧ b.size = n) ∧
    (∀ e, init entropy n seed (some pb) = .error e → pb.length ≠ n * n) ∧
    (∃ b, init entropy n seed none = .ok b ∧ b.size = n) := by
  refine ⟨?_, ?_, ?_, ?_⟩
  · intro h
    unfold init _init_board
    simp only
    rw [if_pos h]
    exact ⟨_, rfl⟩
  · intro h
    unfold init _init_board
    simp only
    rw [if_neg (by simp [h])]
    exact ⟨_, rfl, rfl⟩
  · intro e he hlen
    unfold init _init_board at he
    simp only at he
    rw [if_neg (by simp [hlen])] at he
    cases he
  · exact ⟨_, rfl, rfl⟩

theorem claim_C9_witness :
    (∃ e, init 0 2 none (some [1, 2, 3]) = .error e) ∧
    (∃ b, init 0 2 none (some [1, 2, 3, 4]) = .ok b ∧ b.size = 2) ∧
    (∃ b, init 0 2 none none = .ok b ∧ b.size = 2) :=
  ⟨(claim_C9 0 2 none [1, 2, 3]).1 (by decide),
   (claim_C9 0 2 none [1, 2, 3, 4]).2.1 (by decide),
   (claim_C9 0 2 none [1, 2, 3, 4]).2.2.2⟩

namespace BoardManager

/-- One modelled `randint(1, 9)` draw lies in [1, 9]. -/
theorem randint19_range (st : Nat) : 1 ≤ (randint19 st).1 ∧ (randint19 st).1 ≤ 9 := by
  unfold randint19
  simp only
  set m := (6364136223846793005 * st + 1442695040888963407) % 2 ^ 64 % 9 with hmdef
  have hlt : m < 9 := Nat.mod_lt _ (by norm_num)
  have h9 : Int.ofNat m < 9 := Int.ofNat_lt.mpr hlt
  have h0 : (0 : Int) ≤ Int.ofNat m := Int.ofNat_nonneg m
  omega

/-- Every cell the random-row generator model emits holds a value in [1, 9]. -/
theorem randRow_mem_range (n st : Nat) :
    ∀ cell ∈ (randRow n st).1, ∃ v, cell = some v ∧ 1 ≤ v ∧ v ≤ 9 := by
  induction n generalizing st with
  | zero => intro cell h; simp [randRow] at h
  | succ n ih =>
    intro cell h
    simp only [randRow, List.mem_cons] at h
    rcases h with h | h
    · exact ⟨(randint19 st).1, h, (randint19_range st).1, (randint19_range st).2⟩
    · exact ih _ cell h

/-- Every cell of the random grid model holds a value in [1, 9]. -/
theorem randGrid_mem_range (size n st : Nat) :
    ∀ row ∈ (randGrid size n st).1, ∀ cell ∈ row, ∃ v, cell = some v ∧ 1 ≤ v ∧ v ≤ 9 := by
  induction n generalizing st with
  | zero => intro row h; simp [randGrid] at h
  | succ n ih =>
    intro row h
    simp only [randGrid, List.mem_cons] at h
    rcases h with h | h
    · intro cell hc
      rw [h] at hc
      exact randRow_mem_range size st cell hc
    · exact ih _ row h

end BoardManager

/-- The board `_init_board` builds from a length-`size*size` preset: the
values laid out row-major, verbatim. -/
def presetBoard (n : Nat) (pb : List Int) : BoardManager where
  size := n
  board := (List.range n).map fun r =>
    (List.range n).map fun c => some (pb.getD (r * n + c) 0)
  last_removed_pos := none

/-- C10: a preset of exactly `size*size` integers is stored verbatim —
construction succeeds and every in-bounds cell reads back
`preset[r*size + c]`, with no validation of the documented [1, 9] value
range (so 0, negative, or large values survive, as the witness shows) —
whereas every randomly generated board's cells do lie in [1, 9]. -/
theorem claim_C10 (entropy : Int) (seed : Option Int) (n : Nat) (pb : List Int)
    (hn : 1 ≤ n) (hlen : pb.length = n * n) :
    (∃ b, init entropy n seed (some pb) = .ok b ∧
      ∀ r c, r < n → c < n → b.get_value (r, c) = some (pb.getD (r * n + c) 0)) ∧
    (∀ b, init entropy n seed none = .ok b →
      ∀ r c, r < n → c < n → ∃ v, b.get_value (r, c) = some v ∧ 1 ≤ v ∧ v ≤ 9) := by
  constructor
  · refine ⟨presetBoard n pb, ?_, ?_⟩
    · unfold init _init_board presetBoard
      simp only
      rw [if_neg (by simp [hlen])]
    · intro r c hr hc
      unfold presetBoard get_value cellAt
      simp only
      have hrlen : r < ((List.range n).map (fun r =>
          (List.range n).map (fun c => some (pb.getD (r * n + c) 0)))).length := by
        simpa using hr
      rw [List.getD_eq_getElem _ _ hrlen, List.getElem_map, List.getElem_range]
      have hclen : c < ((List.range n).map
          (fun c => some (pb.getD (r * n + c) 0))).length := by
        simpa using hc
      rw [List.getD_eq_getElem _ _ hclen, List.getElem_map, List.getElem_range]
  · intro b hb r c hr hc
    unfold init _init_board at hb
    simp only at hb
    cases hb
    unfold get_value cellAt
    simp only
    have hrlen : r < (randGrid n n (seedState (seed.getD entropy))).1.length := by
      rw [randGrid_length]
      exact hr
    rw [List.getD_eq_getElem _ _ hrlen]
    have hrow := randGrid_mem_range n n (seedState (seed.getD entropy))
      ((randGrid n n (seedState (seed.getD entropy))).1[r]) (List.getElem_mem hrlen)
    have hrowlen : ((randGrid n n (seedState (seed.getD entropy))).1[r]).length = n :=
      randGrid_row_length n n _ _ (List.getElem_mem hrlen)
    have hclen : c < ((randGrid n n (seedState (seed.getD entropy))).1[r]).length := by
      rw [hrowlen]; exact hc
    rw [List.getD_eq_getElem _ _ hclen]
    exact hrow _ (List.getElem_mem hclen)

theorem claim_C10_witness :
    ((1 : Nat) ≤ 2 ∧ ([0, -5, 10, 3] : List Int).length = 2 * 2) ∧
    ∃ b, init 0 2 none (some [0, -5, 10, 3]) = .ok b ∧ b.get_value (0, 1) = some (-5) := by
  refine ⟨⟨by decide, by decide⟩, ?_⟩
  obtain ⟨⟨b, hb, hval⟩, -⟩ := claim_C10 0 none 2 [0, -5, 10, 3] (by decide) (by decide)
  refine ⟨b, hb, ?_⟩
  rw [hval 0 1 (by decide) (by decide)]
  rfl
